import Mathlib

/-!
Verification of the rANS stack coder (`AnsCoder` in `src/stream/stack/mod.rs`).

The coder is generic over a compressed-word width `W_BITS`, a state width
`S_BITS` and a fixed-point precision `PRECISION`; we carry these as a `Params`
value and represent machine integers as `Nat` with explicit `% 2 ^ w` and
shift/divide operations where the source truncates.

The `bulk` backend of the default coder is a `Vec<W>` used as a LIFO stack:
`write` pushes at the vector's end and `read` pops from the vector's end.  We
represent the buffer as a `List Nat` in *read order*: the head of the list is
the next word `read` returns, i.e. the *last* element of the Rust vector.  The
helper `vec_last` recovers "last word of the vector" in this representation.

The backend operations and the chunk helpers `bit_array_to_chunks_truncated` /
`bit_array_from_chunks` live outside the provided sources; they are modelled
from the specification (sections 4.1 and 4.2), with the iteration orientation
fixed by the repository's own round-trip tests and the reference fixture
`[597775281, 3]` from the specification.
-/

namespace Constriction

/-- Generic parameters of the coder: `bits(W)`, `bits(S)` and `PRECISION`. -/
structure Params where
  wBits : Nat
  sBits : Nat
  precision : Nat
deriving DecidableEq

/-- The side conditions the source imposes on the generic parameters:
`bits(W) > 0`, `bits(S) ≥ 2·bits(W)` (the `assert!` in the constructors) and
`1 ≤ PRECISION ≤ bits(W)`. -/
def Params.Valid (P : Params) : Prop :=
  0 < P.wBits ∧ 2 * P.wBits ≤ P.sBits ∧ 0 < P.precision ∧ P.precision ≤ P.wBits

instance (P : Params) : Decidable P.Valid := by
  unfold Params.Valid; infer_instance

/-- Parameters of `DefaultAnsCoder`: `W = u32`, `S = u64`, `PRECISION = 24`. -/
def default_params : Params := ⟨32, 64, 24⟩

/-- Modelled from the spec: the growable `Vec` backend writes by pushing onto
the read end of the buffer (the Rust vector's end). -/
def write_word (w : Nat) (v : List Nat) : List Nat := w :: v

/-- Modelled from the spec: the stack backend's `read` pops the word most
recently written (the Rust vector's last element, our list head). -/
def read_word (v : List Nat) : Option (Nat × List Nat) :=
  match v with
  | [] => none
  | w :: rest => some (w, rest)

/-- Modelled from the spec: `extend(iter)` writes each yielded word in turn. -/
def extend (ws : List Nat) (v : List Nat) : List Nat :=
  ws.foldl (fun acc w => write_word w acc) v

/-- The last element of the Rust vector underlying a buffer.  In our read-order
representation this is the head of the list (the next word `read` pops). -/
def vec_last (v : List Nat) : Option Nat := v.head?

/-- Modelled from the spec (section 4.1): `bit_array_to_chunks_truncated`
decomposes a state into `w`-bit chunks with the zero chunks above the most
significant nonzero chunk truncated (`0` itself has no chunks).  This list is
least-significant chunk first; `into_compressed` feeds the *reversed* iterator
to `extend`, and the orientation (which end of the vector receives the most
significant chunk) is fixed by the repository's round-trip tests and the
spec's fixture `[597775281, 3]`.  The first argument is recursion fuel; any
fuel `≥ x` computes the chunk list of `x`. -/
def chunks_aux (w : Nat) : Nat → Nat → List Nat
  | 0, _ => []
  | fuel + 1, x => if x = 0 then [] else x % 2 ^ w :: chunks_aux w fuel (x / 2 ^ w)

/-- `w`-bit chunks of `x`, least significant first, high zero chunks dropped. -/
def chunksLSF (w : Nat) (x : Nat) : List Nat := chunks_aux w x x

/-- The coder's data: `bulk` (the backend buffer, in read order) and the live
rANS register `state`.  The documented invariant `INV-STATE` is `Inv` below. -/
structure AnsCoder where
  bulk : List Nat
  state : Nat
deriving DecidableEq, Repr

/-- `AnsCoder::new` / `default`: empty bulk, zero state. -/
def AnsCoder.new : AnsCoder := ⟨[], 0⟩

/-- `INV-STATE`: `state ≥ 2^(S_BITS − W_BITS)` unless `bulk` is empty
(doc comment on the `state` field in the source). -/
def Inv (P : Params) (c : AnsCoder) : Prop :=
  c.bulk = [] ∨ 2 ^ (P.sBits - P.wBits) ≤ c.state

instance (P : Params) (c : AnsCoder) : Decidable (Inv P c) := by
  unfold Inv; infer_instance

/-- `is_empty`: the coder holds no compressed data iff `state = 0`
(together with `INV-STATE` this forces `bulk` to be empty). -/
def is_empty (c : AnsCoder) : Bool := c.state == 0

/-- An entropy model as the coder sees it: `enc` is
`EncoderModel::left_cumulative_and_probability` and `dec` is
`DecoderModel::quantile_function`. -/
structure Model (σ : Type) where
  enc : σ → Option (Nat × Nat)
  dec : Nat → σ × Nat × Nat

/-- The `DecoderModel` contract (spec section 4.4): for every quantile
`q < 2^PRECISION` the model returns `(s, c, p)` with `c ≤ q < c + p` and
`c + p ≤ 2^PRECISION`. -/
def DecValid (P : Params) {σ : Type} (m : Model σ) : Prop :=
  ∀ q, q < 2 ^ P.precision →
    (m.dec q).2.1 ≤ q ∧ q < (m.dec q).2.1 + (m.dec q).2.2 ∧
      (m.dec q).2.1 + (m.dec q).2.2 ≤ 2 ^ P.precision

/-- `flush_state`: write the low `W_BITS` of `state` to `bulk`, then shift
`state` right by `W_BITS`. -/
def flush_state (P : Params) (c : AnsCoder) : AnsCoder :=
  { bulk := write_word (c.state % 2 ^ P.wBits) c.bulk
    state := c.state >>> P.wBits }

/-- `encode_symbol`.  Returns the updated coder together with `true` on `Ok`
and the coder as left behind by a failing call together with `false` on
`Err(ImpossibleSymbol)`.  Mirrors the source: query the model; flush if
`state >> (S_BITS − PRECISION) ≥ probability`; `decode_remainder_off_state`
(whose `checked_div` fails iff the probability is zero);
`append_quantile_to_state`. -/
def encode_symbol (P : Params) {σ : Type} (c : AnsCoder) (s : σ) (m : Model σ) :
    AnsCoder × Bool :=
  match m.enc s with
  | none => (c, false)
  | some (lc, p) =>
    let c1 := if p ≤ c.state >>> (P.sBits - P.precision) then flush_state P c else c
    if p = 0 then (c1, false)
    else
      let remainder := c1.state % p
      let st := c1.state / p
      ({ bulk := c1.bulk, state := st <<< P.precision ||| (lc + remainder) }, true)

/-- `try_refill_state_if_necessary`: if `state < 2^(S_BITS − W_BITS)`, pop one
word from `bulk` into the low bits of `state`; when `bulk` is empty the state
is left unchanged (the `Err` of `try_refill_state` fires before the
assignment, and `decode_symbol` ignores it). -/
def try_refill_state_if_necessary (P : Params) (c : AnsCoder) : AnsCoder :=
  if c.state < 2 ^ (P.sBits - P.wBits) then
    match read_word c.bulk with
    | none => c
    | some (w, rest) => { bulk := rest, state := c.state <<< P.wBits ||| w }
  else c

/-- `decode_symbol`: chop the quantile off `state`, query the model's quantile
function, push the remainder back onto `state`, then refill if necessary. -/
def decode_symbol (P : Params) {σ : Type} (c : AnsCoder) (m : Model σ) :
    σ × AnsCoder :=
  let q := c.state % (1 <<< P.precision)
  let c1 : AnsCoder := { bulk := c.bulk, state := c.state >>> P.precision }
  match m.dec q with
  | (s, lc, p) =>
    let remainder := q - lc
    let c2 : AnsCoder := { bulk := c1.bulk, state := c1.state * p + remainder }
    (s, try_refill_state_if_necessary P c2)

/-- The decoding error type of the stack coder, mirroring
`core::convert::Infallible`: it has no inhabitants. -/
inductive DecodingError : Type

/-- `decode_symbol` as the source exposes it through the `Decode` trait: all
the work is total and the final line is `Ok(symbol)`. -/
def decode_symbol_checked (P : Params) {σ : Type} (c : AnsCoder) (m : Model σ) :
    Except DecodingError (σ × AnsCoder) :=
  Except.ok (decode_symbol P c m)

/-- `into_compressed`: `bulk.extend(bit_array_to_chunks_truncated(state).rev())`
— append the chunks of `state` so that the most significant nonzero chunk ends
at the read end (the Rust vector's end), then hand back `bulk`. -/
def into_compressed (P : Params) (c : AnsCoder) : List Nat :=
  extend (chunksLSF P.wBits c.state) c.bulk

/-- The read loop of `from_compressed`: keep popping words into the low end of
`state` and stop as soon as `state ≥ 2^(S_BITS − W_BITS)` (checked after each
word) or the buffer is exhausted. -/
def from_compressed_loop (P : Params) (state : Nat) : List Nat → Nat × List Nat
  | [] => (state, [])
  | w :: rest =>
    let state1 := state <<< P.wBits ||| w
    if 2 ^ (P.sBits - P.wBits) ≤ state1 then (state1, rest)
    else from_compressed_loop P state1 rest

/-- `from_compressed`: read the first word (the Rust vector's last); hand the
(already read) buffer back as `Err` if that word is zero; otherwise seed
`state` with it and run the read loop. -/
def from_compressed (P : Params) (v : List Nat) : Except (List Nat) AnsCoder :=
  match read_word v with
  | none => Except.ok { bulk := v, state := 0 }
  | some (w, rest) =>
    if w = 0 then Except.error rest
    else
      let sr := from_compressed_loop P w rest
      Except.ok { bulk := sr.2, state := sr.1 }

/-- Modelled from the spec (section 4.1): `bit_array_from_chunks` folds chunks
into a state, first chunk ending most significant. -/
def from_chunks_fold (w : Nat) (acc : Nat) : List Nat → Nat
  | [] => acc
  | ch :: rest => from_chunks_fold w (acc <<< w ||| ch) rest

/-- `from_binary`: build `state` from a synthetic leading `1` chunk followed by
words read from the buffer, `bit_array_from_chunks` taking at most
`ceil(S_BITS / W_BITS)` items in total (so at most that many minus one words
are consumed); the unread words stay in `bulk`. -/
def from_binary (P : Params) (v : List Nat) : AnsCoder :=
  let k := (P.sBits + P.wBits - 1) / P.wBits
  let consumed := min (k - 1) v.length
  { bulk := v.drop consumed
    state := from_chunks_fold P.wBits 1 (v.take consumed) }

/-- Bit length of a natural number (fuel-based so that it computes by
reduction); `bit_len x` is the position of the highest set bit plus one. -/
def bit_len_aux : Nat → Nat → Nat
  | 0, _ => 0
  | fuel + 1, x => if x = 0 then 0 else bit_len_aux fuel (x / 2) + 1

/-- Bit length of `x`: `0` for `0`, otherwise `⌊log₂ x⌋ + 1`. -/
def bit_len (x : Nat) : Nat := bit_len_aux x x

/-- `leading_zeros` of a state value, as the `S`-bit machine type counts them. -/
def leading_zeros (P : Params) (x : Nat) : Nat := P.sBits - bit_len x

/-- `into_binary`: `valid_bits = (S_BITS − 1).wrapping_sub(leading_zeros)`
(the wrap to `usize::MAX` happens exactly for `state = 0`, caught by the
explicit check); fail unless `valid_bits` is a multiple of `W_BITS`; otherwise
strip the top `1` bit and append the remaining chunks. -/
def into_binary (P : Params) (c : AnsCoder) : Option (List Nat) :=
  if c.state = 0 then none
  else
    let valid_bits := P.sBits - 1 - leading_zeros P c.state
    if valid_bits % P.wBits ≠ 0 then none
    else some (extend (chunksLSF P.wBits (c.state ^^^ (1 <<< valid_bits))) c.bulk)

/-- Encode a list of (symbol, model) pairs in order with `encode_symbol`,
propagating failure. -/
def encode_all (P : Params) {σ : Type} (c : AnsCoder) :
    List (σ × Model σ) → Option AnsCoder
  | [] => some c
  | sm :: rest =>
    match encode_symbol P c sm.1 sm.2 with
    | (c1, true) => encode_all P c1 rest
    | (_, false) => none

/-- Decode one symbol per model with `decode_symbol`, returning the symbols in
decoding order together with the final coder. -/
def decode_all (P : Params) {σ : Type} (c : AnsCoder) :
    List (Model σ) → List σ × AnsCoder
  | [] => ([], c)
  | m :: rest =>
    let sc := decode_symbol P c m
    let rs := decode_all P sc.2 rest
    (sc.1 :: rs.1, rs.2)

/-- The hypotheses of the round-trip claim on one (symbol, model) pair: the
symbol has nonzero probability under the encoder view, the probability mass
fits the grid, and the decoder view agrees with the encoder view on the
symbol's cumulative interval. -/
def GoodPair (P : Params) {σ : Type} (sm : σ × Model σ) : Prop :=
  ∃ lc p, sm.2.enc sm.1 = some (lc, p) ∧ 0 < p ∧ lc + p ≤ 2 ^ P.precision ∧
    ∀ q, lc ≤ q → q < lc + p → sm.2.dec q = (sm.1, lc, p)

/-- Exactly `j` chunks of `x`, least significant first, no truncation.
Proof-layer helper used to reason about the truncated chunk list. -/
def lsfFixed (w : Nat) : Nat → Nat → List Nat
  | 0, _ => []
  | j + 1, x => x % 2 ^ w :: lsfFixed w j (x / 2 ^ w)

/-- Tiny parameter instantiation (`W = u1`-like, `S` twice as wide,
`PRECISION = 1`) used to evaluate the theorems on concrete inputs. -/
def tiny_params : Params := ⟨1, 2, 1⟩

/-- A model that assigns the whole probability mass `2^PRECISION = 2` (at
`tiny_params`) to the single symbol `0`. -/
def m_unit : Model Nat := ⟨fun _ => some (0, 2), fun _ => (0, 0, 2)⟩

/-- A two-symbol model at `tiny_params`: symbol `0` owns quantile `0` and
symbol `1` owns quantile `1`; the encoder view maps every symbol to the
interval of symbol `1`. -/
def m_one : Model Nat := ⟨fun _ => some (1, 1), fun q => if q = 0 then (0, 0, 1) else (1, 1, 1)⟩

/-- A model whose encoder view rejects every symbol (empty support). -/
def m_none : Model Nat := ⟨fun _ => none, fun _ => (0, 0, 1)⟩

/-! ## Helper lemmas -/

theorem shiftLeft_lor_eq (a : Nat) {b n : Nat} (h : b < 2 ^ n) :
    a <<< n ||| b = a * 2 ^ n + b := by
  rw [Nat.shiftLeft_eq, Nat.mul_comm, ← Nat.mul_add_lt_is_or h, Nat.mul_comm]

theorem extend_eq (ws v : List Nat) : extend ws v = ws.reverse ++ v := by
  induction ws generalizing v with
  | nil => simp [extend]
  | cons w ws ih =>
    simp only [extend, List.foldl_cons, List.reverse_cons, List.append_assoc] at *
    simp [write_word, ih]

theorem chunks_aux_eq_of_le (w : Nat) (hw : 0 < w) :
    ∀ f₁ f₂ x, x ≤ f₁ → x ≤ f₂ → chunks_aux w f₁ x = chunks_aux w f₂ x := by
  intro f₁
  induction f₁ with
  | zero =>
    intro f₂ x h1 _
    interval_cases x
    cases f₂ <;> simp [chunks_aux]
  | succ f₁ ih =>
    intro f₂ x h1 h2
    match f₂ with
    | 0 =>
      interval_cases x
      simp [chunks_aux]
    | f₂ + 1 =>
      by_cases hx : x = 0
      · simp [chunks_aux, hx]
      · have hdiv : x / 2 ^ w < x := Nat.div_lt_self (Nat.pos_of_ne_zero hx)
          (Nat.one_lt_two_pow (Nat.pos_iff_ne_zero.mp hw))

        simp only [chunks_aux, if_neg hx]
        rw [ih f₂ (x / 2 ^ w) (by omega) (by omega)]

theorem chunksLSF_zero (w : Nat) : chunksLSF w 0 = [] := rfl

theorem chunksLSF_eq (w : Nat) (hw : 0 < w) {x : Nat} (hx : x ≠ 0) :
    chunksLSF w x = x % 2 ^ w :: chunksLSF w (x / 2 ^ w) := by
  obtain ⟨n, rfl⟩ : ∃ n, x = n + 1 := ⟨x - 1, by omega⟩
  have hdiv : (n + 1) / 2 ^ w < n + 1 := Nat.div_lt_self (Nat.succ_pos n)
    (Nat.one_lt_two_pow (Nat.pos_iff_ne_zero.mp hw))
  simp only [chunksLSF, chunks_aux, if_neg hx]
  rw [chunks_aux_eq_of_le w hw n ((n + 1) / 2 ^ w) ((n + 1) / 2 ^ w) (by omega) (le_refl _)]

theorem chunks_reverse_decomp (w : Nat) (hw : 0 < w) :
    ∀ x, 0 < x → ∃ j, (chunksLSF w x).reverse = x >>> (j * w) :: (lsfFixed w j x).reverse
      ∧ 0 < x >>> (j * w) ∧ x >>> (j * w) < 2 ^ w := by
  intro x
  induction x using Nat.strong_induction_on with
  | _ x ih =>
  intro hx
  rw [chunksLSF_eq w hw (Nat.pos_iff_ne_zero.mp hx)]
  by_cases hlt : x < 2 ^ w
  · refine ⟨0, ?_, ?_, ?_⟩ <;>
      simp [Nat.div_eq_of_lt hlt, chunksLSF_zero, Nat.mod_eq_of_lt hlt, Nat.shiftRight_eq_div_pow,
        hx, hlt, lsfFixed]
  · have hpos : 0 < x / 2 ^ w := Nat.div_pos (le_of_not_lt hlt) (Nat.two_pow_pos w)
    have hdiv : x / 2 ^ w < x := Nat.div_lt_self hx
      (Nat.one_lt_two_pow (Nat.pos_iff_ne_zero.mp hw))
    obtain ⟨j, hrev, hjpos, hjlt⟩ := ih (x / 2 ^ w) hdiv hpos
    have hshift : (x / 2 ^ w) >>> (j * w) = x >>> ((j + 1) * w) := by
      rw [Nat.shiftRight_eq_div_pow, Nat.shiftRight_eq_div_pow, Nat.div_div_eq_div_mul,
        ← Nat.pow_add]
      congr 2
      ring
    refine ⟨j + 1, ?_, ?_, ?_⟩
    · rw [List.reverse_cons, hrev, hshift]
      simp [lsfFixed, List.reverse_cons]
    · rwa [hshift] at hjpos
    · rwa [hshift] at hjlt

theorem loop_spec (P : Params) (hP : P.Valid) :
    ∀ (j x : Nat) (extra : List Nat), x < 2 ^ P.sBits → 0 < x >>> (j * P.wBits) →
      (j = 0 → x < 2 ^ (P.sBits - P.wBits)) →
      from_compressed_loop P (x >>> (j * P.wBits)) ((lsfFixed P.wBits j x).reverse ++ extra) =
        if 2 ^ (P.sBits - P.wBits) ≤ x then (x, extra) else from_compressed_loop P x extra := by
  obtain ⟨hw, hsw, hpr, hprw⟩ := hP
  intro j
  induction j with
  | zero =>
    intro x extra _ _ h0
    rw [if_neg (not_le.mpr (h0 rfl))]
    simp [lsfFixed]
  | succ j ih =>
    intro x extra hlt hpos _
    have hxdivS : x / 2 ^ P.wBits < 2 ^ (P.sBits - P.wBits) := by
      rw [Nat.div_lt_iff_lt_mul (Nat.two_pow_pos _), ← Nat.pow_add]
      have : P.sBits - P.wBits + P.wBits = P.sBits := by omega
      rwa [this]
    have hshift : (x / 2 ^ P.wBits) >>> (j * P.wBits) = x >>> ((j + 1) * P.wBits) := by
      rw [Nat.shiftRight_eq_div_pow, Nat.shiftRight_eq_div_pow, Nat.div_div_eq_div_mul,
        ← Nat.pow_add]
      congr 2
      ring
    have hlist : (lsfFixed P.wBits (j + 1) x).reverse ++ extra =
        (lsfFixed P.wBits j (x / 2 ^ P.wBits)).reverse ++ (x % 2 ^ P.wBits :: extra) := by
      simp [lsfFixed, List.reverse_cons, List.append_assoc]
    have hrecomp : (x / 2 ^ P.wBits) <<< P.wBits ||| x % 2 ^ P.wBits = x := by
      rw [shiftLeft_lor_eq _ (Nat.mod_lt x (Nat.two_pow_pos _)), Nat.mul_comm,
        Nat.div_add_mod]
    rw [hlist, ← hshift,
      ih (x / 2 ^ P.wBits) (x % 2 ^ P.wBits :: extra)
        (lt_of_le_of_lt (Nat.div_le_self x _) hlt)
        (by rw [hshift]; exact hpos) (fun _ => hxdivS),
      if_neg (not_le.mpr hxdivS)]
    simp only [from_compressed_loop, hrecomp]

theorem into_compressed_eq (P : Params) (c : AnsCoder) :
    into_compressed P c = (chunksLSF P.wBits c.state).reverse ++ c.bulk :=
  extend_eq _ _

theorem from_compressed_into_compressed (P : Params) (hP : P.Valid) (c : AnsCoder)
    (hinv : Inv P c) (hlt : c.state < 2 ^ P.sBits) :
    from_compressed P (into_compressed P c) = Except.ok c := by
  obtain ⟨hw, hsw, hpr, hprw⟩ := hP
  obtain ⟨bulk, state⟩ := c
  rw [into_compressed_eq]
  by_cases hst : state = 0
  · subst hst
    have hbulk : bulk = [] := by
      rcases hinv with h | h
      · exact h
      · exact absurd h (by simp [Nat.two_pow_pos])
    subst hbulk
    rfl
  · obtain ⟨j, hrev, hjpos, hjlt⟩ :=
      chunks_reverse_decomp P.wBits hw state (Nat.pos_of_ne_zero hst)
    rw [show ({ bulk := bulk, state := state } : AnsCoder).state = state from rfl,
      show ({ bulk := bulk, state := state } : AnsCoder).bulk = bulk from rfl, hrev]
    have h0 : j = 0 → state < 2 ^ (P.sBits - P.wBits) := by
      intro hj
      subst hj
      simp only [Nat.zero_mul, Nat.shiftRight_zero] at hjlt
      exact lt_of_lt_of_le hjlt (Nat.pow_le_pow_right (by omega) (by omega))
    have hloop := loop_spec P ⟨hw, hsw, hpr, hprw⟩ j state bulk hlt hjpos h0
    simp only [from_compressed, read_word, List.cons_append, if_neg (Nat.pos_iff_ne_zero.mp hjpos)]
    rw [hloop]
    by_cases hbig : 2 ^ (P.sBits - P.wBits) ≤ state
    · rw [if_pos hbig]
    · rw [if_neg hbig]
      have hbulk : bulk = [] := by
        rcases hinv with h | h
        · exact h
        · exact absurd h hbig
      subst hbulk
      rfl

theorem encode_symbol_ok {σ : Type} (P : Params) (c : AnsCoder) (m : Model σ) (s : σ)
    {lc p : Nat} (henc : m.enc s = some (lc, p)) (hp : 0 < p) :
    encode_symbol P c s m =
      ({ bulk := (if p ≤ c.state >>> (P.sBits - P.precision) then flush_state P c else c).bulk,
         state :=
           ((if p ≤ c.state >>> (P.sBits - P.precision) then flush_state P c else c).state / p)
             <<< P.precision |||
             (lc +
              (if p ≤ c.state >>> (P.sBits - P.precision) then flush_state P c else c).state % p) },
       true) := by
  simp only [encode_symbol, henc]
  rw [if_neg hp.ne']

theorem encode_post {σ : Type} (P : Params) (hP : P.Valid) (c : AnsCoder) (m : Model σ) (s : σ)
    {lc p : Nat} (henc : m.enc s = some (lc, p)) (hp : 0 < p)
    (hcap : lc + p ≤ 2 ^ P.precision) (hinv : Inv P c) (hlt : c.state < 2 ^ P.sBits) :
    (encode_symbol P c s m).2 = true ∧
    Inv P (encode_symbol P c s m).1 ∧
    (encode_symbol P c s m).1.state < 2 ^ P.sBits ∧
    (encode_symbol P c s m).1.bulk =
      (if p ≤ c.state >>> (P.sBits - P.precision)
       then write_word (c.state % 2 ^ P.wBits) c.bulk else c.bulk) := by
  obtain ⟨hw, hsw, hpr, hprw⟩ := hP
  rw [encode_symbol_ok P c m s henc hp]
  have hprS : P.precision ≤ P.sBits := by omega
  by_cases hcond : p ≤ c.state >>> (P.sBits - P.precision)
  · simp only [if_pos hcond, flush_state]
    have hr : (c.state >>> P.wBits) % p < p := Nat.mod_lt _ hp
    have hq : lc + (c.state >>> P.wBits) % p < 2 ^ P.precision := by omega
    have hDlt : (c.state >>> P.wBits) / p < 2 ^ (P.sBits - P.precision) := by
      rw [Nat.shiftRight_eq_div_pow, Nat.div_lt_iff_lt_mul hp]
      calc c.state / 2 ^ P.wBits < 2 ^ (P.sBits - P.wBits) := by
            rw [Nat.div_lt_iff_lt_mul (Nat.two_pow_pos _), ← Nat.pow_add]
            have he : P.sBits - P.wBits + P.wBits = P.sBits := by omega
            rwa [he]
        _ ≤ 2 ^ (P.sBits - P.precision) := Nat.pow_le_pow_right (by omega) (by omega)
        _ ≤ 2 ^ (P.sBits - P.precision) * p := Nat.le_mul_of_pos_right _ hp
    have hstate_eq : ((c.state >>> P.wBits) / p) <<< P.precision |||
        (lc + (c.state >>> P.wBits) % p) =
        ((c.state >>> P.wBits) / p) * 2 ^ P.precision +
          (lc + (c.state >>> P.wBits) % p) := shiftLeft_lor_eq _ hq
    have hbound : ((c.state >>> P.wBits) / p) * 2 ^ P.precision +
        (lc + (c.state >>> P.wBits) % p) < 2 ^ P.sBits := by
      calc ((c.state >>> P.wBits) / p) * 2 ^ P.precision +
            (lc + (c.state >>> P.wBits) % p)
          < ((c.state >>> P.wBits) / p + 1) * 2 ^ P.precision := by
            rw [Nat.add_mul, Nat.one_mul]
            omega
        _ ≤ 2 ^ (P.sBits - P.precision) * 2 ^ P.precision := by
            exact Nat.mul_le_mul_right _ (by omega)
        _ = 2 ^ P.sBits := by
            rw [← Nat.pow_add]
            congr 1
            omega
    have hDge : 2 ^ (P.sBits - P.precision - P.wBits) ≤ (c.state >>> P.wBits) / p := by
      have hge : p * 2 ^ (P.sBits - P.precision) ≤ c.state := by
        rw [← Nat.le_div_iff_mul_le (Nat.two_pow_pos _), ← Nat.shiftRight_eq_div_pow]
        exact hcond
      rw [Nat.shiftRight_eq_div_pow, Nat.div_div_eq_div_mul]
      calc 2 ^ (P.sBits - P.precision - P.wBits)
          = 2 ^ (P.sBits - P.precision) / 2 ^ P.wBits := by
            rw [Nat.pow_div (by omega) (by norm_num)]
        _ = p * 2 ^ (P.sBits - P.precision) / (p * 2 ^ P.wBits) := by
            rw [Nat.mul_div_mul_left _ _ hp]
        _ = p * 2 ^ (P.sBits - P.precision) / (2 ^ P.wBits * p) := by
            rw [Nat.mul_comm p (2 ^ P.wBits)]
        _ ≤ c.state / (2 ^ P.wBits * p) := Nat.div_le_div_right hge
    have hinv2 : 2 ^ (P.sBits - P.wBits) ≤
        ((c.state >>> P.wBits) / p) * 2 ^ P.precision +
          (lc + (c.state >>> P.wBits) % p) := by
      calc 2 ^ (P.sBits - P.wBits)
          = 2 ^ (P.sBits - P.precision - P.wBits) * 2 ^ P.precision := by
            rw [← Nat.pow_add]
            congr 1
            omega
        _ ≤ ((c.state >>> P.wBits) / p) * 2 ^ P.precision :=
            Nat.mul_le_mul_right _ hDge
        _ ≤ _ := Nat.le_add_right _ _
    refine ⟨by trivial, Or.inr ?_, ?_, by trivial⟩
    · rw [hstate_eq]
      exact hinv2
    · rw [hstate_eq]
      exact hbound
  · simp only [if_neg hcond]
    have hr : c.state % p < p := Nat.mod_lt _ hp
    have hq : lc + c.state % p < 2 ^ P.precision := by omega
    have hDlt : c.state / p < 2 ^ (P.sBits - P.precision) := by
      rw [Nat.div_lt_iff_lt_mul hp]
      rw [not_le, Nat.shiftRight_eq_div_pow, Nat.div_lt_iff_lt_mul (Nat.two_pow_pos _)] at hcond
      rwa [Nat.mul_comm]
    have hstate_eq : (c.state / p) <<< P.precision ||| (lc + c.state % p) =
        (c.state / p) * 2 ^ P.precision + (lc + c.state % p) := shiftLeft_lor_eq _ hq
    have hbound : (c.state / p) * 2 ^ P.precision + (lc + c.state % p) < 2 ^ P.sBits := by
      calc (c.state / p) * 2 ^ P.precision + (lc + c.state % p)
          < (c.state / p + 1) * 2 ^ P.precision := by
            rw [Nat.add_mul, Nat.one_mul]
            omega
        _ ≤ 2 ^ (P.sBits - P.precision) * 2 ^ P.precision := by
            exact Nat.mul_le_mul_right _ (by omega)
        _ = 2 ^ P.sBits := by
            rw [← Nat.pow_add]
            congr 1
            omega
    refine ⟨by trivial, ?_, ?_, by trivial⟩
    · rcases hinv with hb | hs
      · exact Or.inl hb
      · refine Or.inr ?_
        rw [hstate_eq]
        calc 2 ^ (P.sBits - P.wBits)
            = 2 ^ (P.sBits - P.wBits - P.precision) * 2 ^ P.precision := by
              rw [← Nat.pow_add]
              congr 1
              omega
          _ ≤ (c.state / p) * 2 ^ P.precision := by
              refine Nat.mul_le_mul_right _ ?_
              calc 2 ^ (P.sBits - P.wBits - P.precision)
                  = 2 ^ (P.sBits - P.wBits) / 2 ^ P.precision := by
                    rw [Nat.pow_div (by omega) (by norm_num)]
                _ ≤ c.state / 2 ^ P.precision := Nat.div_le_div_right hs
                _ ≤ c.state / p := Nat.div_le_div_left (by omega) hp
          _ ≤ _ := Nat.le_add_right _ _
    · rw [hstate_eq]
      exact hbound

theorem decode_symbol_eq {σ : Type} (P : Params) (c : AnsCoder) (m : Model σ) :
    decode_symbol P c m =
      ((m.dec (c.state % (1 <<< P.precision))).1,
       try_refill_state_if_necessary P
         { bulk := c.bulk,
           state := (c.state >>> P.precision) * (m.dec (c.state % (1 <<< P.precision))).2.2 +
             (c.state % (1 <<< P.precision) - (m.dec (c.state % (1 <<< P.precision))).2.1) }) :=
  rfl

theorem decode_encode {σ : Type} (P : Params) (hP : P.Valid) (c : AnsCoder) (m : Model σ)
    (s : σ) {lc p : Nat} (henc : m.enc s = some (lc, p)) (hp : 0 < p)
    (hcap : lc + p ≤ 2 ^ P.precision)
    (hagree : ∀ q, lc ≤ q → q < lc + p → m.dec q = (s, lc, p))
    (hinv : Inv P c) (hlt : c.state < 2 ^ P.sBits) :
    decode_symbol P (encode_symbol P c s m).1 m = (s, c) := by
  obtain ⟨hw, hsw, hpr, hprw⟩ := hP
  obtain ⟨bulk0, state0⟩ := c
  have hlt' : state0 < 2 ^ P.sBits := hlt
  have hinv' : bulk0 = [] ∨ 2 ^ (P.sBits - P.wBits) ≤ state0 := hinv
  rw [encode_symbol_ok P _ m s henc hp]
  have hone : (1 : Nat) <<< P.precision = 2 ^ P.precision := by
    rw [Nat.shiftLeft_eq, Nat.one_mul]
  by_cases hcond : p ≤ (⟨bulk0, state0⟩ : AnsCoder).state >>> (P.sBits - P.precision)
  · simp only [if_pos hcond, flush_state]
    have hr : (state0 >>> P.wBits) % p < p := Nat.mod_lt _ hp
    have hq : lc + (state0 >>> P.wBits) % p < 2 ^ P.precision := by omega
    have hE : ((state0 >>> P.wBits) / p) <<< P.precision |||
        (lc + (state0 >>> P.wBits) % p) =
        ((state0 >>> P.wBits) / p) * 2 ^ P.precision +
          (lc + (state0 >>> P.wBits) % p) := shiftLeft_lor_eq _ hq
    have hmod : (((state0 >>> P.wBits) / p) <<< P.precision |||
        (lc + (state0 >>> P.wBits) % p)) % 2 ^ P.precision =
        lc + (state0 >>> P.wBits) % p := by
      rw [hE, Nat.mul_comm ((state0 >>> P.wBits) / p) (2 ^ P.precision), Nat.mul_add_mod,
        Nat.mod_eq_of_lt hq]
    have hdiv : (((state0 >>> P.wBits) / p) <<< P.precision |||
        (lc + (state0 >>> P.wBits) % p)) >>> P.precision = (state0 >>> P.wBits) / p := by
      rw [hE, Nat.shiftRight_eq_div_pow, Nat.mul_comm,
        Nat.mul_add_div (Nat.two_pow_pos _), Nat.div_eq_of_lt hq, Nat.add_zero]
    have hdec : m.dec (lc + (state0 >>> P.wBits) % p) = (s, lc, p) :=
      hagree _ (Nat.le_add_right _ _) (by omega)
    rw [decode_symbol_eq, hone]
    dsimp only
    rw [hmod, hdec, hdiv]
    dsimp only
    rw [Nat.add_sub_cancel_left, Nat.div_add_mod']
    have hstlt : state0 >>> P.wBits < 2 ^ (P.sBits - P.wBits) := by
      rw [Nat.shiftRight_eq_div_pow, Nat.div_lt_iff_lt_mul (Nat.two_pow_pos _), ← Nat.pow_add]
      have he : P.sBits - P.wBits + P.wBits = P.sBits := by omega
      rwa [he]
    have hrecomp : (state0 >>> P.wBits) <<< P.wBits ||| state0 % 2 ^ P.wBits = state0 := by
      rw [shiftLeft_lor_eq _ (Nat.mod_lt _ (Nat.two_pow_pos _)),
        Nat.shiftRight_eq_div_pow, Nat.mul_comm, Nat.div_add_mod]
    simp [try_refill_state_if_necessary, if_pos hstlt, write_word, read_word, hrecomp]
  · simp only [if_neg hcond]
    have hr : state0 % p < p := Nat.mod_lt _ hp
    have hq : lc + state0 % p < 2 ^ P.precision := by omega
    have hE : (state0 / p) <<< P.precision ||| (lc + state0 % p) =
        (state0 / p) * 2 ^ P.precision + (lc + state0 % p) := shiftLeft_lor_eq _ hq
    have hmod : ((state0 / p) <<< P.precision ||| (lc + state0 % p)) % 2 ^ P.precision =
        lc + state0 % p := by
      rw [hE, Nat.mul_comm (state0 / p) (2 ^ P.precision), Nat.mul_add_mod,
        Nat.mod_eq_of_lt hq]
    have hdiv : ((state0 / p) <<< P.precision ||| (lc + state0 % p)) >>> P.precision =
        state0 / p := by
      rw [hE, Nat.shiftRight_eq_div_pow, Nat.mul_comm,
        Nat.mul_add_div (Nat.two_pow_pos _), Nat.div_eq_of_lt hq, Nat.add_zero]
    have hdec : m.dec (lc + state0 % p) = (s, lc, p) :=
      hagree _ (Nat.le_add_right _ _) (by omega)
    rw [decode_symbol_eq, hone]
    dsimp only
    rw [hmod, hdec, hdiv]
    dsimp only
    rw [Nat.add_sub_cancel_left, Nat.div_add_mod']
    rcases hinv' with hb | hs
    · subst hb
      by_cases h2 : state0 < 2 ^ (P.sBits - P.wBits) <;>
        simp [try_refill_state_if_necessary, h2, read_word]
    · simp [try_refill_state_if_necessary, not_lt.mpr hs]

theorem decode_all_append {σ : Type} (P : Params) (c : AnsCoder)
    (xs ys : List (Model σ)) :
    decode_all P c (xs ++ ys) =
      ((decode_all P c xs).1 ++ (decode_all P (decode_all P c xs).2 ys).1,
       (decode_all P (decode_all P c xs).2 ys).2) := by
  induction xs generalizing c with
  | nil => simp [decode_all]
  | cons m xs ih => simp [decode_all, ih]

theorem encode_decode_chain {σ : Type} (P : Params) (hP : P.Valid) :
    ∀ (pairs : List (σ × Model σ)) (c : AnsCoder), (∀ sm ∈ pairs, GoodPair P sm) →
      Inv P c → c.state < 2 ^ P.sBits →
      ∃ c1, encode_all P c pairs = some c1 ∧
        decode_all P c1 (pairs.reverse.map Prod.snd) = (pairs.reverse.map Prod.fst, c) := by
  intro pairs
  induction pairs with
  | nil =>
    intro c _ _ _
    exact ⟨c, rfl, by simp [decode_all]⟩
  | cons sm rest ih =>
    intro c hgood hinv hlt
    obtain ⟨lc, p, henc, hp, hcap, hagree⟩ := hgood sm (List.mem_cons_self _ _)
    obtain ⟨hok, hinv1, hlt1, _⟩ := encode_post P hP c sm.2 sm.1 henc hp hcap hinv hlt
    have hstep : encode_all P c (sm :: rest) =
        encode_all P (encode_symbol P c sm.1 sm.2).1 rest := by
      have he : encode_symbol P c sm.1 sm.2 = ((encode_symbol P c sm.1 sm.2).1, true) := by
        rw [← hok]
      simp only [encode_all]
      rw [he]
    obtain ⟨c2, henc_all, hdec_all⟩ :=
      ih (encode_symbol P c sm.1 sm.2).1
        (fun sm' h => hgood sm' (List.mem_cons_of_mem _ h)) hinv1 hlt1
    refine ⟨c2, by rw [hstep]; exact henc_all, ?_⟩
    have hd1 := decode_encode P hP c sm.2 sm.1 henc hp hcap hagree hinv hlt
    simp only [List.reverse_cons, List.map_append, List.map_cons, List.map_nil]
    rw [decode_all_append, hdec_all]
    simp [decode_all, hd1]

theorem decode_inv {σ : Type} (P : Params) (hP : P.Valid) (c : AnsCoder) (m : Model σ)
    (hm : DecValid P m) (hinv : Inv P c) (hbulk : ∀ w ∈ c.bulk, w < 2 ^ P.wBits) :
    Inv P (decode_symbol P c m).2 := by
  obtain ⟨hw, hsw, hpr, hprw⟩ := hP
  obtain ⟨bulk0, state0⟩ := c
  have hinv' : bulk0 = [] ∨ 2 ^ (P.sBits - P.wBits) ≤ state0 := hinv
  rw [decode_symbol_eq]
  have hone : (1 : Nat) <<< P.precision = 2 ^ P.precision := by
    rw [Nat.shiftLeft_eq, Nat.one_mul]
  have hq : state0 % (1 <<< P.precision) < 2 ^ P.precision := by
    rw [hone]
    exact Nat.mod_lt _ (Nat.two_pow_pos _)
  obtain ⟨hlcq, hqlt, _⟩ := hm _ hq
  have hppos : 0 < (m.dec (state0 % (1 <<< P.precision))).2.2 := by omega
  set q := state0 % (1 <<< P.precision) with hqdef
  set lc' := (m.dec q).2.1
  set p' := (m.dec q).2.2
  set st2 := (state0 >>> P.precision) * p' + (q - lc') with hst2
  by_cases h2 : st2 < 2 ^ (P.sBits - P.wBits)
  · rcases hinv' with hb | hs
    · subst hb
      simp only [try_refill_state_if_necessary, read_word, if_pos h2]
      exact Or.inl rfl
    · cases hb : bulk0 with
      | nil => simp [try_refill_state_if_necessary, read_word, if_pos h2, Inv]
      | cons w0 rest0 =>
        have hw0 : w0 < 2 ^ P.wBits := hbulk w0 (by rw [hb]; exact List.mem_cons_self _ _)
        simp only [try_refill_state_if_necessary, read_word, if_pos h2, hb]
        refine Or.inr ?_
        rw [shiftLeft_lor_eq _ hw0]
        have hstlb : 2 ^ (P.sBits - P.wBits - P.precision) ≤ state0 >>> P.precision := by
          rw [Nat.shiftRight_eq_div_pow]
          calc 2 ^ (P.sBits - P.wBits - P.precision)
              = 2 ^ (P.sBits - P.wBits) / 2 ^ P.precision := by
                rw [Nat.pow_div (by omega) (by norm_num)]
            _ ≤ state0 / 2 ^ P.precision := Nat.div_le_div_right hs
        have hst2lb : 2 ^ (P.sBits - P.wBits - P.precision) ≤ st2 := by
          calc 2 ^ (P.sBits - P.wBits - P.precision)
              ≤ state0 >>> P.precision := hstlb
            _ ≤ (state0 >>> P.precision) * p' := Nat.le_mul_of_pos_right _ hppos
            _ ≤ st2 := Nat.le_add_right _ _
        calc 2 ^ (P.sBits - P.wBits)
            ≤ 2 ^ (P.sBits - P.wBits - P.precision) * 2 ^ P.wBits := by
              rw [← Nat.pow_add]
              exact Nat.pow_le_pow_right (by norm_num) (by omega)
          _ ≤ st2 * 2 ^ P.wBits := Nat.mul_le_mul_right _ hst2lb
          _ ≤ st2 * 2 ^ P.wBits + w0 := Nat.le_add_right _ _
  · simp only [try_refill_state_if_necessary, if_neg h2]
    exact Or.inr (le_of_not_lt h2)

/-! ## Claim theorems -/

/-- Claim C1: for every `AnsCoder` (satisfying its documented representation
invariant `INV-STATE` and the `S`-bit machine bound on `state`) and every
finite sequence of (symbol, model) pairs in which each symbol has nonzero
probability under its model and each model's encoder and decoder views agree
on the cumulative partition, encoding every pair in order succeeds, and
decoding with the same models in reverse order returns exactly the original
symbols (most recently encoded first) and restores `(state, bulk)` to their
values before the first encode; in particular, a coder created by `new()`
ends with `is_empty() = true`. -/
theorem C1_encode_decode_roundtrip {σ : Type} (P : Params) (hP : P.Valid)
    (pairs : List (σ × Model σ)) (hpairs : ∀ sm ∈ pairs, GoodPair P sm)
    (c : AnsCoder) (hinv : Inv P c) (hlt : c.state < 2 ^ P.sBits) :
    ∃ c1, encode_all P c pairs = some c1 ∧
      decode_all P c1 (pairs.reverse.map Prod.snd) = (pairs.reverse.map Prod.fst, c) ∧
      (c = AnsCoder.new →
        is_empty (decode_all P c1 (pairs.reverse.map Prod.snd)).2 = true) := by
  obtain ⟨c1, h1, h2⟩ := encode_decode_chain P hP pairs c hpairs hinv hlt
  refine ⟨c1, h1, h2, fun hc => ?_⟩
  rw [h2]
  subst hc
  rfl

theorem C1_encode_decode_roundtrip_witness :
    ∃ c1, encode_all tiny_params AnsCoder.new [((0 : Nat), m_unit)] = some c1 ∧
      decode_all tiny_params c1 ([((0 : Nat), m_unit)].reverse.map Prod.snd) =
        ([((0 : Nat), m_unit)].reverse.map Prod.fst, AnsCoder.new) ∧
      (AnsCoder.new = AnsCoder.new →
        is_empty (decode_all tiny_params c1
          ([((0 : Nat), m_unit)].reverse.map Prod.snd)).2 = true) :=
  C1_encode_decode_roundtrip tiny_params (by decide) [((0 : Nat), m_unit)]
    (by
      intro sm hsm
      simp only [List.mem_singleton] at hsm
      subst hsm
      exact ⟨0, 2, rfl, by decide, by decide, fun q h1 h2 => rfl⟩)
    AnsCoder.new (Or.inl rfl) (by decide)

/-- Claim C2: for every coder satisfying `INV-STATE` (with `state` within the
`S`-bit machine bound) and every symbol of nonzero probability `p`,
`encode_symbol` calls `flush_state` — pushing the low `W_BITS` of `state`
onto `bulk` — if and only if `state >> (S_BITS − PRECISION) ≥ p` held before
the call, and after the `Ok` return the coder again satisfies `INV-STATE`. -/
theorem C2_renormalization {σ : Type} (P : Params) (hP : P.Valid) (c : AnsCoder)
    (m : Model σ) (s : σ) {lc p : Nat} (henc : m.enc s = some (lc, p)) (hp : 0 < p)
    (hcap : lc + p ≤ 2 ^ P.precision) (hinv : Inv P c) (hlt : c.state < 2 ^ P.sBits) :
    (p ≤ c.state >>> (P.sBits - P.precision) ↔
      (encode_symbol P c s m).1.bulk = write_word (c.state % 2 ^ P.wBits) c.bulk) ∧
    Inv P (encode_symbol P c s m).1 := by
  obtain ⟨_, hinv', _, hbulk⟩ := encode_post P hP c m s henc hp hcap hinv hlt
  refine ⟨⟨fun h => by rw [hbulk, if_pos h], fun h => ?_⟩, hinv'⟩
  by_contra hcond
  rw [hbulk, if_neg hcond] at h
  exact List.cons_ne_self _ _ h.symm

theorem C2_renormalization_witness :
    ((1 : Nat) ≤ AnsCoder.new.state >>> (tiny_params.sBits - tiny_params.precision) ↔
      (encode_symbol tiny_params AnsCoder.new 0 m_one).1.bulk =
        write_word (AnsCoder.new.state % 2 ^ tiny_params.wBits) AnsCoder.new.bulk) ∧
    Inv tiny_params (encode_symbol tiny_params AnsCoder.new 0 m_one).1 :=
  C2_renormalization tiny_params (by decide) AnsCoder.new m_one 0 rfl (by decide)
    (by decide) (Or.inl rfl) (by decide)

/-- Claim C3 (counterexample): encoding one symbol onto a fresh coder with a
model of probability `1` at `PRECISION = 1` succeeds and leaves a coder that
is neither `is_empty` nor has `state ≥ 2^(S_BITS − W_BITS)` — the claim's
disjunction with `is_empty()` fails on the code (the code's invariant uses
"`bulk` is empty" instead). -/
theorem C3_counterexample :
    (encode_symbol tiny_params AnsCoder.new 0 m_one).2 = true ∧
    ¬(is_empty (encode_symbol tiny_params AnsCoder.new 0 m_one).1 = true ∨
      2 ^ (tiny_params.sBits - tiny_params.wBits) ≤
        (encode_symbol tiny_params AnsCoder.new 0 m_one).1.state) := by
  decide

/-- Claim C3 (amended): for every coder satisfying `INV-STATE` (with bulk
words and `state` within their machine bounds), after any successful
`encode_symbol` (with a model obeying the encoder contract) or any
`decode_symbol` (with a model obeying the decoder contract), either the
coder's `bulk` is empty or `state ≥ 2^(S_BITS − W_BITS)`. -/
theorem C3_amended_inv_preserved {σ : Type} (P : Params) (hP : P.Valid) (c : AnsCoder)
    (hinv : Inv P c) (hlt : c.state < 2 ^ P.sBits)
    (hbulk : ∀ w ∈ c.bulk, w < 2 ^ P.wBits) (m : Model σ) :
    (∀ s lc p, m.enc s = some (lc, p) → 0 < p → lc + p ≤ 2 ^ P.precision →
      Inv P (encode_symbol P c s m).1) ∧
    (DecValid P m → Inv P (decode_symbol P c m).2) := by
  constructor
  · intro s lc p henc hp hcap
    exact (encode_post P hP c m s henc hp hcap hinv hlt).2.1
  · intro hm
    exact decode_inv P hP c m hm hinv hbulk

theorem C3_amended_inv_preserved_witness :
    (∀ s lc p, m_one.enc s = some (lc, p) → 0 < p → lc + p ≤ 2 ^ tiny_params.precision →
      Inv tiny_params (encode_symbol tiny_params ⟨[1], 2⟩ s m_one).1) ∧
    (DecValid tiny_params m_one → Inv tiny_params (decode_symbol tiny_params ⟨[1], 2⟩ m_one).2) :=
  C3_amended_inv_preserved tiny_params (by decide) ⟨[1], 2⟩ (Or.inr (by decide))
    (by decide)
    (by
      intro w hwmem
      simp only [List.mem_singleton] at hwmem
      subst hwmem
      decide)
    m_one

/-- Claim C4: for every well-formed coder (one satisfying `INV-STATE`, with
`state` within the `S`-bit machine bound), `from_compressed` applied to the
buffer returned by `into_compressed` succeeds and yields the same coder, with
the same `state` and the same remaining `bulk`. -/
theorem C4_compressed_roundtrip (P : Params) (hP : P.Valid) (c : AnsCoder)
    (hinv : Inv P c) (hlt : c.state < 2 ^ P.sBits) :
    from_compressed P (into_compressed P c) = Except.ok c :=
  from_compressed_into_compressed P hP c hinv hlt

theorem C4_compressed_roundtrip_witness :
    from_compressed default_params (into_compressed default_params ⟨[7], 2 ^ 32⟩) =
      Except.ok ⟨[7], 2 ^ 32⟩ :=
  C4_compressed_roundtrip default_params (by decide) ⟨[7], 2 ^ 32⟩
    (Or.inr (by decide)) (by decide)

/-- Claim C5: for every well-formed coder (one satisfying `INV-STATE`): if it
`is_empty` then `into_compressed` returns an empty buffer, and if it is
nonempty then the last word of the returned buffer (the read end of the
backend, `vec_last`) is nonzero. -/
theorem C5_export_invariant (P : Params) (hP : P.Valid) (c : AnsCoder)
    (hinv : Inv P c) :
    (is_empty c = true → into_compressed P c = []) ∧
    (is_empty c = false → ∃ w, vec_last (into_compressed P c) = some w ∧ w ≠ 0) := by
  obtain ⟨hw, hsw, hpr, hprw⟩ := hP
  constructor
  · intro hempty
    have hst : c.state = 0 := by
      simpa [is_empty] using hempty
    have hb : c.bulk = [] := by
      rcases hinv with h | h
      · exact h
      · rw [hst] at h
        exact absurd h (by simp [Nat.two_pow_pos])
    rw [into_compressed_eq, hst, chunksLSF_zero, hb]
    rfl
  · intro hne
    have hst : c.state ≠ 0 := by
      simpa [is_empty] using hne
    obtain ⟨j, hrev, hjpos, _⟩ :=
      chunks_reverse_decomp P.wBits hw c.state (Nat.pos_of_ne_zero hst)
    refine ⟨c.state >>> (j * P.wBits), ?_, Nat.pos_iff_ne_zero.mp hjpos⟩
    rw [into_compressed_eq, hrev]
    rfl

theorem C5_export_invariant_witness :
    (is_empty (⟨[], 1⟩ : AnsCoder) = true → into_compressed tiny_params ⟨[], 1⟩ = []) ∧
    (is_empty (⟨[], 1⟩ : AnsCoder) = false →
      ∃ w, vec_last (into_compressed tiny_params ⟨[], 1⟩) = some w ∧ w ≠ 0) :=
  C5_export_invariant tiny_params (by decide) ⟨[], 1⟩ (Or.inl rfl)

/-- Claim C6 (counterexample): `from_compressed([0])` does return an error,
but the buffer handed back is `[]`, not the original buffer `[0]`: the read
of the trailing zero word has already popped it off the backend before the
`Err(compressed)` return. -/
theorem C6_counterexample :
    from_compressed default_params [0] = Except.error [] ∧
    (Except.error [] : Except (List Nat) AnsCoder) ≠ Except.error [0] := by
  refine ⟨rfl, ?_⟩
  intro h
  have : ([] : List Nat) = [0] := by
    injection h
  simp at this

/-- Claim C6 (amended): `from_compressed(v)` returns `Err` if and only if the
last word of `v` (the first word popped, `vec_last`) is `Some(0)`; the buffer
handed back in the `Err` is `v` with that zero word already popped off.
Otherwise it returns `Ok`, having popped words from the read end of `v` into
`state` until `INV-STATE` holds or `v` is exhausted. -/
theorem C6_amended_from_compressed_err (P : Params) (v : List Nat) :
    (∀ rest, from_compressed P v = Except.error rest →
      vec_last v = some 0 ∧ v = 0 :: rest) ∧
    (vec_last v = some 0 → from_compressed P v = Except.error v.tail) ∧
    (vec_last v ≠ some 0 → ∃ c, from_compressed P v = Except.ok c) := by
  match v with
  | [] =>
    refine ⟨?_, ?_, ?_⟩
    · intro rest h
      exact absurd h (by simp [from_compressed, read_word])
    · intro h
      exact absurd h (by simp [vec_last])
    · intro _
      exact ⟨⟨[], 0⟩, rfl⟩
  | w :: rest0 =>
    by_cases hw : w = 0
    · subst hw
      refine ⟨?_, fun _ => rfl, ?_⟩
      · intro rest h
        have : rest0 = rest := by
          simpa [from_compressed, read_word] using h
        subst this
        exact ⟨rfl, rfl⟩
      · intro h
        exact absurd rfl h
    · refine ⟨?_, ?_, ?_⟩
      · intro rest h
        exact absurd h (by simp [from_compressed, read_word, hw])
      · intro h
        have : w = 0 := by
          simpa [vec_last] using h
        exact absurd this hw
      · intro _
        exact ⟨⟨(from_compressed_loop P w rest0).2, (from_compressed_loop P w rest0).1⟩,
          by simp [from_compressed, read_word, hw]⟩

theorem C6_amended_from_compressed_err_witness :
    vec_last [0] = some 0 ∧ [0] = 0 :: ([] : List Nat) :=
  (C6_amended_from_compressed_err default_params [0]).1 [] rfl

/-- Claim C7 (code evaluation at the failing input): `from_binary([0])` builds
the coder with `state = 2^32 | 0` and empty bulk, but `into_binary` then
returns `Ok([])` instead of `Ok([0])`: the truncated chunk iterator drops the
zero chunk below the sentinel, contradicting `into_binary`'s documented
equivalence with popping the trailing `1` word off `into_compressed` (which
would yield `[0]`). -/
theorem C7_into_binary_bug_eval :
    from_binary default_params [0] = ⟨[], 2 ^ 32⟩ ∧
    into_binary default_params (from_binary default_params [0]) = some [] ∧
    (some [] : Option (List Nat)) ≠ some [0] := by
  refine ⟨by decide, by decide, by decide⟩

/-- Claim C8: `encode_symbol` returns `Err(ImpossibleSymbol)` if and only if
the model reports no support for the symbol (under the encoder-model contract
that a reported probability is nonzero), and such a failing call leaves the
coder's `bulk` and `state` unchanged: the failure occurs at the model query
step, before the renormalization flush. -/
theorem C8_impossible_symbol {σ : Type} (P : Params) (c : AnsCoder) (m : Model σ)
    (s : σ) (hmodel : ∀ lc p, m.enc s = some (lc, p) → 0 < p) :
    ((encode_symbol P c s m).2 = false ↔ m.enc s = none) ∧
    (m.enc s = none → (encode_symbol P c s m).1 = c) := by
  rcases h : m.enc s with _ | ⟨lc, p⟩
  · exact ⟨by simp [encode_symbol, h], fun _ => by simp [encode_symbol, h]⟩
  · have hp := hmodel lc p h
    rw [encode_symbol_ok P c m s h hp]
    constructor
    · simp [h]
    · intro hn
      simp [h] at hn

theorem C8_impossible_symbol_witness :
    ((encode_symbol tiny_params AnsCoder.new 0 m_none).2 = false ↔ m_none.enc 0 = none) ∧
    (m_none.enc 0 = none → (encode_symbol tiny_params AnsCoder.new 0 m_none).1 = AnsCoder.new) :=
  C8_impossible_symbol tiny_params AnsCoder.new m_none 0
    (by
      intro lc p h
      exact absurd h (by simp [m_none]))

/-- Claim C9: `decode_symbol` never returns an error — its decoding-error type
(mirroring `core::convert::Infallible`) is uninhabited, and for every decoder
model and every coder state the call is total and returns `Ok`, including
when the compressed data is exhausted. -/
theorem C9_decode_infallible :
    (DecodingError → False) ∧
    ∀ (σ : Type) (P : Params) (c : AnsCoder) (m : Model σ),
      ∃ r, decode_symbol_checked P c m = Except.ok r := by
  constructor
  · intro e
    cases e
  · intro σ P c m
    exact ⟨decode_symbol P c m, rfl⟩

/-- Claim C10: for every empty coder (`state = 0`, no bulk words left) and
every decoder model obeying its contract, `decode_symbol` returns the symbol
`quantile_function(0)` selects — whose left-cumulative is necessarily `0` —
and leaves the coder unchanged: `state` remains `0` and `bulk` is not
consumed. -/
theorem C10_decode_empty {σ : Type} (P : Params) (m : Model σ) (hm : DecValid P m) :
    decode_symbol P ⟨[], 0⟩ m = ((m.dec 0).1, ⟨[], 0⟩) ∧ (m.dec 0).2.1 = 0 := by
  obtain ⟨hle, _, _⟩ := hm 0 (Nat.two_pow_pos _)
  have hlc : (m.dec 0).2.1 = 0 := Nat.le_zero.mp hle
  refine ⟨?_, hlc⟩
  rw [decode_symbol_eq]
  simp [try_refill_state_if_necessary, read_word, Nat.two_pow_pos]

theorem C10_decode_empty_witness :
    decode_symbol tiny_params ⟨[], 0⟩ m_unit = ((m_unit.dec 0).1, ⟨[], 0⟩) ∧
      (m_unit.dec 0).2.1 = 0 :=
  C10_decode_empty tiny_params m_unit
    (by
      intro q hq
      have hq2 : q < 2 := by
        simpa [tiny_params] using hq
      refine ⟨Nat.zero_le _, ?_, ?_⟩
      · show q < 0 + 2
        omega
      · show 0 + 2 ≤ 2 ^ tiny_params.precision
        decide)

end Constriction

